import Mathlib

/-!
Verification of the schematic-to-netlist core of Pyttoresque
(`pyttoresque/netlist.py`, `pyttoresque/simserver.py`).

Python dictionaries are modelled as insertion-ordered association lists
(`List (α × β)`); mutating dictionary idioms (`d[k] = v`, `d.setdefault(k,
[]).append(v)`, `d.pop(k)`, `d.popitem()`, `del d[k]`) become the pure
operations `alInsert`, `alUpsert`, `alPop`, `alPopLast` below.  Fallible
Python code (`KeyError`, `ValueError`) is embedded as `Option`-returning
functions, and the unbounded `while` loops of the extractor are embedded
with an explicit fuel parameter.
-/

set_option maxRecDepth 4000
set_option synthInstance.maxSize 512

section ALists

variable {α : Type} {β : Type} [DecidableEq α]

/-- Lookup in an association list: `d.get(k)` / `d[k]`. -/
def alGet? : List (α × β) → α → Option β
  | [], _ => none
  | (k', v) :: t, k => if k' = k then some v else alGet? t k

/-- Assignment `d[k] = v`: replaces in place, or appends at the end. -/
def alInsert : List (α × β) → α → β → List (α × β)
  | [], k, v => [(k, v)]
  | (k', v') :: t, k, v => if k' = k then (k, v) :: t else (k', v') :: alInsert t k v

/-- The idiom `f(d.setdefault(k, dflt))` where `f` mutates the stored value
in place (e.g. `d.setdefault(k, []).append(x)`). -/
def alUpsert : List (α × β) → α → β → (β → β) → List (α × β)
  | [], k, d, f => [(k, f d)]
  | (k', v) :: t, k, d, f => if k' = k then (k, f v) :: t else (k', v) :: alUpsert t k d f

/-- The idiom `d.pop(k)`: returns the stored value and the remaining map,
or `none` (`KeyError`) when the key is absent. -/
def alPop : List (α × β) → α → Option (β × List (α × β))
  | [], _ => none
  | (k', v) :: t, k =>
    if k' = k then some (v, t)
    else match alPop t k with
      | some (r, t') => some (r, (k', v) :: t')
      | none => none

/-- The idiom `d.popitem()`: removes and returns the most recently inserted
entry (LIFO order, as in Python 3.7+ dicts). -/
def alPopLast : List (α × β) → Option ((α × β) × List (α × β))
  | [] => none
  | [x] => some (x, [])
  | x :: y :: t =>
    match alPopLast (y :: t) with
    | some (r, t') => some (r, x :: t')
    | none => none

/-- Keys of an association list, in insertion order. -/
def alKeys (m : List (α × β)) : List α := m.map Prod.fst

@[simp] theorem alGet?_nil (k : α) : alGet? ([] : List (α × β)) k = none := rfl

theorem alGet?_alInsert_self (m : List (α × β)) (k : α) (v : β) :
    alGet? (alInsert m k v) k = some v := by
  induction m with
  | nil => simp [alInsert, alGet?]
  | cons p t ih =>
    by_cases h : p.1 = k
    · simp [alInsert, alGet?, h]
    · simp [alInsert, alGet?, h, ih]

theorem alGet?_alInsert_ne (m : List (α × β)) (k k' : α) (v : β) (h : k' ≠ k) :
    alGet? (alInsert m k v) k' = alGet? m k' := by
  have h2 : ¬ (k = k') := fun hh => h hh.symm
  induction m with
  | nil => simp [alInsert, alGet?, h2]
  | cons p t ih =>
    by_cases hp : p.1 = k
    · subst hp
      simp [alInsert, alGet?, h2]
    · simp [alInsert, alGet?, hp, ih]

theorem alGet?_alUpsert (m : List (α × β)) (k : α) (d : β) (f : β → β) (k' : α) :
    alGet? (alUpsert m k d f) k' =
      if k' = k then some (f ((alGet? m k).getD d)) else alGet? m k' := by
  induction m with
  | nil =>
    by_cases h : k' = k
    · subst h; simp [alUpsert, alGet?]
    · have h2 : ¬ (k = k') := fun hh => h hh.symm
      simp [alUpsert, alGet?, h, h2]
  | cons p t ih =>
    by_cases hp : p.1 = k
    · subst hp
      by_cases h : p.1 = k'
      · subst h
        simp [alUpsert, alGet?]
      · have h2 : ¬ (k' = p.1) := fun hh => h hh.symm
        simp [alUpsert, alGet?, h, h2]
    · by_cases h : p.1 = k'
      · subst h
        have h2 : ¬ (p.1 = k) := hp
        have h3 : ¬ (p.1 = k) := hp
        simp [alUpsert, alGet?, h2, h3, hp]
      · simp [alUpsert, alGet?, hp, h, ih]

theorem alInsert_alInsert_same (m : List (α × β)) (k : α) (v : β) :
    alInsert (alInsert m k v) k v = alInsert m k v := by
  induction m with
  | nil => simp [alInsert]
  | cons p t ih =>
    by_cases hp : p.1 = k
    · simp [alInsert, hp]
    · simp [alInsert, hp, ih]

theorem alKeys_alInsert (m : List (α × β)) (k : α) (v : β) :
    alKeys (alInsert m k v) = if k ∈ alKeys m then alKeys m else alKeys m ++ [k] := by
  induction m with
  | nil => simp [alInsert, alKeys]
  | cons p t ih =>
    by_cases hp : p.1 = k
    · subst hp
      simp [alInsert, alKeys]
    · have h2 : ¬ (k = p.1) := fun hh => hp hh.symm
      by_cases hk : k ∈ alKeys t
      · simp only [alKeys, List.map_cons] at ih ⊢
        simp only [alKeys] at hk
        simp [alInsert, hp, hk, h2, ih, alKeys]
      · simp only [alKeys, List.map_cons] at ih ⊢
        simp only [alKeys] at hk
        simp [alInsert, hp, hk, h2, ih, alKeys]

theorem alKeys_alUpsert (m : List (α × β)) (k : α) (d : β) (f : β → β) :
    alKeys (alUpsert m k d f) = if k ∈ alKeys m then alKeys m else alKeys m ++ [k] := by
  induction m with
  | nil => simp [alUpsert, alKeys]
  | cons p t ih =>
    by_cases hp : p.1 = k
    · subst hp
      simp [alUpsert, alKeys]
    · have h2 : ¬ (k = p.1) := fun hh => hp hh.symm
      by_cases hk : k ∈ alKeys t
      · simp only [alKeys, List.map_cons] at ih ⊢
        simp only [alKeys] at hk
        simp [alUpsert, hp, hk, h2, ih, alKeys]
      · simp only [alKeys, List.map_cons] at ih ⊢
        simp only [alKeys] at hk
        simp [alUpsert, hp, hk, h2, ih, alKeys]

theorem alKeys_nodup_alInsert (m : List (α × β)) (k : α) (v : β)
    (h : (alKeys m).Nodup) : (alKeys (alInsert m k v)).Nodup := by
  rw [alKeys_alInsert]
  by_cases hk : k ∈ alKeys m
  · simpa [hk]
  · simp only [hk, if_false]
    simpa [List.nodup_append] using ⟨h, hk⟩

theorem alKeys_nodup_alUpsert (m : List (α × β)) (k : α) (d : β) (f : β → β)
    (h : (alKeys m).Nodup) : (alKeys (alUpsert m k d f)).Nodup := by
  rw [alKeys_alUpsert]
  by_cases hk : k ∈ alKeys m
  · simpa [hk]
  · simp only [hk, if_false]
    simpa [List.nodup_append] using ⟨h, hk⟩

theorem mem_alUpsert (m : List (α × β)) (k : α) (d : β) (f : β → β) (p : α × β)
    (h : p ∈ alUpsert m k d f) :
    p ∈ m ∨ p.1 = k ∧ (p.2 = f d ∨ ∃ v, (k, v) ∈ m ∧ p.2 = f v) := by
  induction m with
  | nil =>
    simp [alUpsert] at h
    subst h
    exact Or.inr ⟨rfl, Or.inl rfl⟩
  | cons q t ih =>
    by_cases hq : q.1 = k
    · simp only [alUpsert, if_pos hq] at h
      rcases List.mem_cons.mp h with h | h
      · subst h
        exact Or.inr ⟨rfl, Or.inr ⟨q.2, by simp [← hq], rfl⟩⟩
      · exact Or.inl (List.mem_cons_of_mem _ h)
    · simp only [alUpsert, if_neg hq] at h
      rcases List.mem_cons.mp h with h | h
      · exact Or.inl (h ▸ List.mem_cons_self _ _)
      · rcases ih h with h' | ⟨h1, h2⟩
        · exact Or.inl (List.mem_cons_of_mem _ h')
        · refine Or.inr ⟨h1, ?_⟩
          rcases h2 with h2 | ⟨v, hv, hv2⟩
          · exact Or.inl h2
          · exact Or.inr ⟨v, List.mem_cons_of_mem _ hv, hv2⟩

theorem alGet?_mem (m : List (α × β)) (k : α) (v : β) (h : alGet? m k = some v) :
    (k, v) ∈ m := by
  induction m with
  | nil => simp [alGet?] at h
  | cons p t ih =>
    by_cases hp : p.1 = k
    · simp [alGet?, hp] at h
      subst h
      exact (by simp [← hp])
    · simp [alGet?, hp] at h
      exact List.mem_cons_of_mem _ (ih h)

theorem alPop_eq_none (m : List (α × β)) (k : α) :
    alPop m k = none ↔ alGet? m k = none := by
  induction m with
  | nil => simp [alPop, alGet?]
  | cons p t ih =>
    by_cases hp : p.1 = k
    · simp [alPop, alGet?, hp]
    · simp only [alPop, alGet?, if_neg hp]
      constructor
      · intro h
        rcases hpop : alPop t k with _ | r
        · exact ih.mp hpop
        · rw [hpop] at h
          simp at h
      · intro h
        rw [ih.mpr h]

theorem alPop_some_get (m : List (α × β)) (k : α) (v : β) (m' : List (α × β))
    (h : alPop m k = some (v, m')) : alGet? m k = some v := by
  induction m generalizing v m' with
  | nil => simp [alPop] at h
  | cons p t ih =>
    by_cases hp : p.1 = k
    · simp only [alPop, if_pos hp] at h
      simp only [Option.some.injEq, Prod.mk.injEq] at h
      simp [alGet?, hp, h.1]
    · simp only [alPop, if_neg hp] at h
      rcases hpop : alPop t k with _ | ⟨r, t'⟩
      · rw [hpop] at h; simp at h
      · rw [hpop] at h
        simp only [Option.some.injEq, Prod.mk.injEq] at h
        obtain ⟨h1, h2⟩ := h
        subst h1
        simpa [alGet?, hp] using ih r t' hpop

theorem alPop_nodup_absent (m : List (α × β)) (k : α) (v : β) (m' : List (α × β))
    (hnd : (alKeys m).Nodup) (h : alPop m k = some (v, m')) :
    alGet? m' k = none := by
  induction m generalizing v m' with
  | nil => simp [alPop] at h
  | cons p t ih =>
    by_cases hp : p.1 = k
    · simp only [alPop, if_pos hp] at h
      simp only [Option.some.injEq, Prod.mk.injEq] at h
      obtain ⟨h1, h2⟩ := h
      subst h2
      subst hp
      simp only [alKeys, List.map_cons, List.nodup_cons] at hnd
      -- the key is absent from the tail, so lookup fails
      have : ∀ u : List (α × β), p.1 ∉ alKeys u → alGet? u p.1 = none := by
        intro u hu
        induction u with
        | nil => simp [alGet?]
        | cons q s ihq =>
          simp only [alKeys, List.map_cons, List.mem_cons] at hu
          push_neg at hu
          have : ¬ (q.1 = p.1) := fun hh => hu.1 hh.symm
          simp [alGet?, this, ihq (by simpa [alKeys] using hu.2)]
      exact this t hnd.1
    · simp only [alPop, if_neg hp] at h
      rcases hpop : alPop t k with _ | ⟨r, t'⟩
      · rw [hpop] at h; simp at h
      · rw [hpop] at h
        simp only [Option.some.injEq, Prod.mk.injEq] at h
        obtain ⟨h1, h2⟩ := h
        subst h1
        subst h2
        simp only [alKeys, List.map_cons, List.nodup_cons] at hnd
        simp [alGet?, hp, ih r t' hnd.2 hpop]

/-- Folding preserves any invariant preserved by each step. -/
theorem foldl_preserve {γ δ : Type} {P : γ → Prop} (step : γ → δ → γ) (l : List δ)
    (acc : γ) (h0 : P acc) (hstep : ∀ a b, P a → P (step a b)) :
    P (l.foldl step acc) := by
  induction l generalizing acc with
  | nil => exact h0
  | cons x t ih => exact ih _ (hstep _ _ h0)

end ALists

/-! ## Data model

A schematic document (one CouchDB row).  Python documents are free-form
JSON objects; the fields below are the ones the netlist core reads.
Fields a given document kind does not carry keep their defaults, and
`name`/`transform` model `doc.get(...)` access (absent key allowed).
`conn` and `variants` are only populated on `models:<cell>` documents
(`doc['conn']`, and the `type` entry of each member of `doc['models']`);
`deleted` models the `_deleted` flag of a change-feed record. -/

/-- Exact rational arithmetic for the float computations of `rotate`.
Python floats are (dyadic) rationals and all float operations performed by
the geometry code on them are exact rational operations in the regime the
spec describes, so the embedding computes with unnormalized fractions: an
integer numerator over a natural denominator.  (Mathlib's `Rat` operations
are `@[irreducible]` and do not evaluate in the kernel, so concrete runs
could not be checked with them.)  A denominator `0` never arises from
well-formed inputs; theorems carry `den ≠ 0` hypotheses where needed. -/
structure Q where
  num : Int
  den : Nat
deriving DecidableEq, Repr

def Q.ofInt (n : Int) : Q := ⟨n, 1⟩

def Q.add (p q : Q) : Q := ⟨p.num * q.den + q.num * p.den, p.den * q.den⟩

def Q.sub (p q : Q) : Q := ⟨p.num * q.den - q.num * p.den, p.den * q.den⟩

def Q.mul (p q : Q) : Q := ⟨p.num * q.num, p.den * q.den⟩

/-- Floor of an unnormalized fraction (floor division). -/
def Q.floor (p : Q) : Int := Int.fdiv p.num p.den

/-- The value of an unnormalized fraction as a rational number (used only
in proofs). -/
def Q.eval (p : Q) : ℚ := (p.num : ℚ) / (p.den : ℚ)

structure T6 where
  a : Q
  b : Q
  c : Q
  d : Q
  e : Q
  f : Q
deriving DecidableEq, Repr

structure Doc where
  docId : String := ""
  cell : String
  x : Int := 0
  y : Int := 0
  rx : Int := 0
  ry : Int := 0
  name : Option String := none
  transform : Option T6 := none
  props : List (String × String) := []
  conn : List (Int × Int × String) := []
  variants : List (String × String) := []
  deleted : Bool := false
deriving DecidableEq, Repr

/-- The default transform `doc.get('transform', [1, 0, 0, 1, 0, 0])`. -/
def idT : T6 :=
  ⟨Q.ofInt 1, Q.ofInt 0, Q.ofInt 0, Q.ofInt 1, Q.ofInt 0, Q.ofInt 0⟩

/-- A pin map `{(x, y): portname_or_None}` as returned by `getports`. -/
abbrev PortMap := List ((Int × Int) × Option String)

/-- A model dictionary, keyed by document id of the form `models:<cell>`. -/
abbrev Models := List (String × Doc)

/-- Translation of `shape_ports`: enumerate the non-blank characters of a
character grid as `(x, y, portname)` triples (row-major order). -/
def shape_ports (shape : List String) : List (Int × Int × String) :=
  shape.enum.foldr (fun ys acc =>
    (ys.2.toList.enum.foldr (fun xc acc2 =>
      if xc.2 = ' ' then acc2
      else ((xc.1 : Int), (ys.1 : Int), xc.2.toString) :: acc2) []) ++ acc) []

def mosfet_shape : List (Int × Int × String) :=
  shape_ports [" D ", "GB ", " S "]

def bjt_shape : List (Int × Int × String) :=
  shape_ports [" C ", "B  ", " E "]

def twoport_shape : List (Int × Int × String) :=
  shape_ports [" P ", "   ", " N "]

/-- Translation of Python 3 `round` on exact (float-representable) values:
round to the nearest integer, ties to the even integer.  The fractional
part `q - floor q` is compared against `1/2` by cross-multiplication. -/
def pyRound (q : Q) : Int :=
  let fl := q.floor
  let fr := q.sub (Q.ofInt fl)
  if fr.num * 2 < (fr.den : Int) then fl
  else if (fr.den : Int) < fr.num * 2 then fl + 1
  else if fl % 2 = 0 then fl else fl + 1

/-- Rounding half away from zero, as the specification describes rounding
(`0.5` to `1`, `-0.5` to `-1`).  This definition follows the spec's words
and exists to be compared against the code's rounding. -/
def roundHalfAway (q : Q) : Int :=
  if 0 ≤ q.num then (q.add ⟨1, 2⟩).floor else -((Q.sub ⟨1, 2⟩ q).floor)

/-- Translation of `rotate`: place each pin of a shape under the 2D affine
transform `[a, b, c, d, e, f]` centred at `(width/2 - 0.5, width/2 - 0.5)`,
then shift by the device origin and round.  `none` models the `ValueError`
raised by `max()` on an empty shape. -/
def rotate (shape : List (Int × Int × String)) (t : T6) (devx devy : Int) :
    Option PortMap :=
  match shape with
  | [] => none
  | s0 :: srest =>
    let width : Int :=
      (srest.foldl (fun m q => max m (max q.1 q.2.1)) (max s0.1 s0.2.1)) + 1
    let mid : Q := Q.sub ⟨width, 2⟩ ⟨1, 2⟩
    some ((s0 :: srest).foldl (fun res q =>
      let x : Q := (Q.ofInt q.1).sub mid
      let y : Q := (Q.ofInt q.2.1).sub mid
      let nx := ((t.a.mul x).add (t.c.mul y)).add t.e
      let ny := ((t.b.mul x).add (t.d.mul y)).add t.f
      alInsert res
        (pyRound (((Q.ofInt devx).add nx).add mid),
         pyRound (((Q.ofInt devy).add ny).add mid))
        (some q.2.2)) [])

/-- The device cells recognized by `getports` without a model lookup,
together with `wire`, `text` and `port`. -/
def knownCells : List String :=
  ["wire", "text", "port", "nmos", "pmos", "npn", "pnp",
   "resistor", "capacitor", "inductor", "vsource", "isource", "diode"]

/-- Translation of `getports`.  `none` models an uncaught `KeyError`
(`doc['name']` on a nameless port, `models[...]` on an unknown cell) or
`ValueError` (empty `conn`). -/
def getports (doc : Doc) (models : Models) : Option PortMap :=
  let tr := doc.transform.getD idT
  if doc.cell = "wire" then
    some (alInsert (alInsert [] (doc.x, doc.y) none)
      (doc.x + doc.rx, doc.y + doc.ry) none)
  else if doc.cell = "text" then some []
  else if doc.cell = "port" then
    match doc.name with
    | some n => some [((doc.x, doc.y), some n)]
    | none => none
  else if doc.cell = "nmos" ∨ doc.cell = "pmos" then
    rotate mosfet_shape tr doc.x doc.y
  else if doc.cell = "npn" ∨ doc.cell = "pnp" then
    rotate bjt_shape tr doc.x doc.y
  else if doc.cell = "resistor" ∨ doc.cell = "capacitor" ∨ doc.cell = "inductor"
      ∨ doc.cell = "vsource" ∨ doc.cell = "isource" ∨ doc.cell = "diode" then
    rotate twoport_shape tr doc.x doc.y
  else
    match alGet? models ("models:" ++ doc.cell) with
    | some m => rotate m.conn tr doc.x doc.y
    | none => none

/-! ## Spatial indexes and the netlist extractor -/

abbrev DeviceIndex := List ((Int × Int) × List (Option String × Doc))
abbrev WireIndex := List ((Int × Int) × List Doc)
abbrev NetDevs := List (String × List (Option String))
abbrev Nl := List (String × List (String × List (Option String)))
abbrev Inl := List (String × List (Option String × String))

/-- The synthetic zero-length wire `{cell: wire, x: x, y: y, rx: 0, ry: 0}`
injected by `port_index` at a device pin coordinate. -/
def dummyWire (x y : Int) : Doc :=
  { cell := "wire", x := x, y := y, rx := 0, ry := 0 }

/-- The per-pin body of the `port_index` loop: wires and ports go into the
wire index; device pins go into the device index and also append a
synthetic zero-length wire at the pin coordinate (unconditionally). -/
def indexStep (doc : Doc) (s : DeviceIndex × WireIndex)
    (item : (Int × Int) × Option String) : DeviceIndex × WireIndex :=
  if doc.cell = "wire" ∨ doc.cell = "port" then
    (s.1, alUpsert s.2 item.1 [] (fun l => l ++ [doc]))
  else
    (alUpsert s.1 item.1 [] (fun l => l ++ [(item.2, doc)]),
     alUpsert s.2 item.1 [] (fun l => l ++ [dummyWire item.1.1 item.1.2]))

/-- Translation of the loop body of `port_index` over the document list
(`docs.values()` in insertion order). -/
def port_indexCore (models : Models) :
    List Doc → DeviceIndex → WireIndex → Option (DeviceIndex × WireIndex)
  | [], di, wi => some (di, wi)
  | doc :: rest, di, wi =>
    match getports doc models with
    | none => none
    | some pm =>
      let s := pm.foldl (indexStep doc) (di, wi)
      port_indexCore models rest s.1 s.2

/-- Translation of `port_index`: build the device and wire spatial indexes. -/
def port_index (docs : List Doc) (models : Models) :
    Option (DeviceIndex × WireIndex) :=
  port_indexCore models docs [] []

/-- The per-pin body of the wire case of the BFS: drain the wire index at
the pin location into the queue, and record `(port, device)` pairs of the
device index at that location into `netdevs`. -/
def wireStep (di : DeviceIndex) (st : WireIndex × List Doc × NetDevs)
    (item : (Int × Int) × Option String) : WireIndex × List Doc × NetDevs :=
  let wiq : WireIndex × List Doc :=
    match alPop st.1 item.1 with
    | some (l, w) => (w, st.2.1 ++ l)
    | none => (st.1, st.2.1)
  let nd' : NetDevs :=
    match alGet? di item.1 with
    | some devl =>
      devl.foldl (fun nd pd =>
        alUpsert nd pd.2.docId [] (fun l => l ++ [pd.1])) st.2.2
    | none => st.2.2
  (wiq.1, wiq.2, nd')

/-- Translation of the inner `while net:` loop of `netlist`, BFS over one
connected component.  Besides the final `netname`, `netdevs` and the
remaining wire index, it returns the list of documents processed, in
processing order (ghost instrumentation used only in statements).
`none` models the `ValueError` on a non-wire/non-port cell, or exhausted
fuel. -/
def innerF (models : Models) (di : DeviceIndex) :
    Nat → WireIndex → List Doc → Option String → NetDevs →
    Option (Option String × NetDevs × WireIndex × List Doc)
  | _, wi, [], nm, nd => some (nm, nd, wi, [])
  | 0, _, _ :: _, _, _ => none
  | f + 1, wi, doc :: rest, nm, nd =>
    if doc.cell = "wire" then
      let nm' := if nm = none ∧ doc.name ≠ none then doc.name else nm
      match getports doc models with
      | none => none
      | some pm =>
        let st := pm.foldl (wireStep di) (wi, rest, nd)
        match innerF models di f st.1 st.2.1 nm' st.2.2 with
        | some (a, b, c, tr) => some (a, b, c, doc :: tr)
        | none => none
    else if doc.cell = "port" then
      match innerF models di f wi rest doc.name nd with
      | some (a, b, c, tr) => some (a, b, c, doc :: tr)
      | none => none
    else none

/-- The accumulation of one device's ports into the net map:
`nl.setdefault(netname, {}).setdefault(k, []).extend(v)`. -/
def nlStep (netname : String) (nl : Nl) (kv : String × List (Option String)) : Nl :=
  alUpsert nl netname [] (fun m => alUpsert m kv.1 [] (fun l => l ++ kv.2))

/-- Translation of the outer `while wire_index:` loop of `netlist`.  Also
returns, per connected component in processing order, whether its name was
synthesized (`netname` still `None` at component end) and the final name
(ghost instrumentation used only in statements). -/
def outerF (models : Models) (di : DeviceIndex) (ifuel : Nat) :
    Nat → WireIndex → Nl → Nat → Option (Nl × List (Bool × String) × Nat)
  | 0, wi, nl, netnum =>
    match alPopLast wi with
    | none => some (nl, [], netnum)
    | some _ => none
  | f + 1, wi, nl, netnum =>
    match alPopLast wi with
    | none => some (nl, [], netnum)
    | some ((_, locwires), wi') =>
      match innerF models di ifuel wi' locwires none [] with
      | none => none
      | some (nm, nd, wi2, _) =>
        let netname := nm.getD ("net" ++ Nat.repr netnum)
        let nl' := nd.foldl (nlStep netname) nl
        let netnum' := if nm.isNone then netnum + 1 else netnum
        match outerF models di ifuel f wi2 nl' netnum' with
        | none => none
        | some (nlf, ctr, nf) => some (nlf, (nm.isNone, netname) :: ctr, nf)

/-- Translation of the inversion at the end of `netlist`:
`inl.setdefault(dev, {})[port] = net` over all nets, devices and ports. -/
def invert (nl : Nl) : Inl :=
  nl.foldl (fun inl nv =>
    nv.2.foldl (fun inl dv =>
      dv.2.foldl (fun inl port =>
        alUpsert inl dv.1 [] (fun m => alInsert m port nv.1)) inl) inl) []

/-- Translation of `netlist` with the ghost component trace and final
counter exposed. -/
def netlistTrace (fuel : Nat) (docs : List Doc) (models : Models) :
    Option (Inl × List (Bool × String) × Nat) :=
  match port_index docs models with
  | none => none
  | some (di, wi) =>
    match outerF models di fuel fuel wi [] 0 with
    | none => none
    | some (nl, ctr, n) => some (invert nl, ctr, n)

/-- Translation of `netlist`: device id to port-name to net-name mapping. -/
def netlist (fuel : Nat) (docs : List Doc) (models : Models) : Option Inl :=
  (netlistTrace fuel docs models).map Prod.fst

/-! ## SPICE emitter property rendering -/

/-- Translation of `print_props`: `model` is inserted at the front when
encountered, `spice` is appended verbatim, any other key renders `k=v`. -/
def print_props (props : List (String × String)) : String :=
  String.intercalate " " (props.foldl (fun prs kv =>
    if kv.1 = "model" then kv.2 :: prs
    else if kv.1 = "spice" then prs ++ [kv.2]
    else prs ++ [kv.1 ++ "=" ++ kv.2]) [])

/-! ## Schematic identifiers and the mirror -/

structure SchemId where
  cell : String
  model : Option String
  device : Option String
deriving DecidableEq, Repr

/-- Translation of the `schem` property: `f"{self.cell}${self.model}"`
(Python renders a missing model as the string `None`). -/
def SchemId.schem (sid : SchemId) : String :=
  sid.cell ++ "$" ++ (sid.model.getD "None")

/-- Splitting a string on a one-character separator, as Python's
`str.split` does (both separators used by `SchemId.from_string` are single
characters). -/
def splitChar (sep : Char) (s : String) : List String :=
  (s.toList.foldr (fun ch acc =>
    match acc with
    | [] => [[ch]]
    | h :: t => if ch = sep then [] :: h :: t else (ch :: h) :: t)
    [[]]).map List.asString

/-- Translation of `SchemId.from_string`: split on `:` (first part is the
schematic id, optional second the device), then split the schematic part
on `$` into cell and model.  `none` models the `ValueError` when the
schematic part does not contain exactly one `$`. -/
def SchemId.fromString (s : String) : Option SchemId :=
  let parts := splitChar ':' s
  let schemPart := parts.headD ""
  let dev : Option String := parts[1]?
  match splitChar '$' schemPart with
  | [c, m] => some ⟨c, some m, dev⟩
  | _ => none

abbrev Schem := List (String × List (String × Doc))

/-- Translation of the body of the change-application loop shared by
`update_schem` and `live_schem_docs`: parse the doc id, then either
`del schem[_id.schem][doc['_id']]` or `schem[_id.schem][doc['_id']] = doc`.
`none` models an uncaught `ValueError`/`KeyError`. -/
def applyChange (schem : Schem) (c : Doc) : Option Schem :=
  match SchemId.fromString c.docId with
  | none => none
  | some sid =>
    let bname := sid.schem
    if c.deleted then
      match alGet? schem bname with
      | none => none
      | some bucket =>
        match alPop bucket c.docId with
        | none => none
        | some (_, bucket') => some (alInsert schem bname bucket')
    else
      match alGet? schem bname with
      | none => none
      | some bucket => some (alInsert schem bname (alInsert bucket c.docId c))

/-! ## Simulation stream adapter -/

/-- A columnar frame: the column list of a `DataFrame` (or of the data held
by a `holoviews` `Buffer`) plus its rows. -/
structure DF where
  columns : List String
  rows : List (List Q)
deriving DecidableEq, Repr

/-- Appending a chunk to a `Buffer` (`streamdict[k].send(v)`): the stored
columns stay, the rows grow. -/
def dfSend (b v : DF) : DF :=
  { columns := b.columns, rows := b.rows ++ v.rows }

/-- Translation of the per-result body of `stream`: key suffixing, the
append-vs-new-frame decision, and the store update.  Also returns the key
passed to `newkey` when a new `Buffer` was created. -/
def streamStep (suffix : String) (store : List (String × DF)) (kv : String × DF) :
    List (String × DF) × Option String :=
  let k := kv.1 ++ suffix
  match alGet? store k with
  | some b =>
    if kv.2.columns = b.columns then (alInsert store k (dfSend b kv.2), none)
    else (alInsert store k kv.2, some k)
  | none => (alInsert store k kv.2, some k)

/-- Translation of the `while more:` read loop of `stream`: each chunk is a
list of `(analysis name, frame)` results applied in arrival order. -/
def streamRun (suffix : String) (store : List (String × DF))
    (chunks : List (List (String × DF))) : List (String × DF) :=
  chunks.foldl (fun st chunk =>
    chunk.foldl (fun st kv => (streamStep suffix st kv).1) st) store

/-! ## Recursive initial load of the mirror -/

/-- A finite document store: the database's update-sequence token plus the
documents grouped by schematic identifier (the `[name:, name:0xFFF0)` key
range used by `get_docs`). -/
structure Store where
  seq : Nat
  tbl : List (String × List (String × Doc))
deriving Repr

/-- Translation of `get_docs`: all documents of one schematic plus the
current sequence token; an identifier with no documents yields `{}`. -/
def get_docs (st : Store) (name : String) : Nat × List (String × Doc) :=
  (st.seq, (alGet? st.tbl name).getD [])

/-- Translation of the `while devs:` loop of `get_all_schem_docs`.  Besides
the accumulated mirror it returns the list of identifiers passed to
`get_docs`, in call order (ghost instrumentation used only in statements).
`none` models exhausted fuel. -/
def getAllCore (st : Store) (models : List (String × Doc)) :
    Nat → Schem → List Doc → Option (Schem × List String)
  | _, schem, [] => some (schem, [])
  | 0, _, _ :: _ => none
  | f + 1, schem, dev :: rest =>
    let mdl := alGet? dev.props "model"
    let typ : Option String :=
      match alGet? models ("models:" ++ dev.cell) with
      | some mdoc =>
        match mdl with
        | some m => alGet? mdoc.variants m
        | none => none
      | none => none
    match mdl with
    | some m =>
      if m ≠ "" ∧ alGet? schem (dev.cell ++ "$" ++ m) = none ∧ typ = some "schematic"
      then
        let sname := dev.cell ++ "$" ++ m
        let docs := (get_docs st sname).2
        if docs ≠ [] then
          match getAllCore st models f (alInsert schem sname docs)
              (rest ++ docs.map Prod.snd) with
          | some (s, tr) => some (s, sname :: tr)
          | none => none
        else
          match getAllCore st models f schem rest with
          | some (s, tr) => some (s, sname :: tr)
          | none => none
      else getAllCore st models f schem rest
    | none => getAllCore st models f schem rest

/-- Translation of `get_all_schem_docs`: fetch `models`, fetch the top
schematic, then walk the queue of devices, fetching referenced schematics
of model type `schematic` that are not yet present. -/
def get_all_schem_docs (fuel : Nat) (st : Store) (name : String) :
    Option (Nat × Schem × List String) :=
  let models := (get_docs st "models").2
  let schem := alInsert ([] : Schem) "models" models
  let docs := (get_docs st name).2
  let schem' := alInsert schem name docs
  match getAllCore st models fuel schem' (docs.map Prod.snd) with
  | some (s, tr) => some (st.seq, s, tr)
  | none => none

/-- All documents of the store that belong to identifiers not yet present
in the mirror: the decreasing potential of the fetch loop. -/
def sumAbsentL (tbl : List (String × List (String × Doc))) (schem : Schem) : Nat :=
  match tbl with
  | [] => 0
  | p :: t =>
    (if alGet? schem p.1 = none then p.2.length else 0) + sumAbsentL t schem

/-! ## C4: pin placement rounding -/

theorem Q.floor_eval (p : Q) (h : p.den ≠ 0) : p.floor = ⌊p.eval⌋ := by
  have hd : (0 : Int) ≤ (p.den : Int) := Int.ofNat_nonneg _
  rw [Q.floor, Int.fdiv_eq_ediv _ hd, Q.eval, Rat.floor_intCast_div_natCast]

theorem Q.eval_sub (p q : Q) (hp : p.den ≠ 0) (hq : q.den ≠ 0) :
    (p.sub q).eval = p.eval - q.eval := by
  have hp' : ((p.den : ℚ)) ≠ 0 := Nat.cast_ne_zero.mpr hp
  have hq' : ((q.den : ℚ)) ≠ 0 := Nat.cast_ne_zero.mpr hq
  simp only [Q.sub, Q.eval]
  push_cast
  field_simp
  ring

theorem Q.eval_ofInt (n : Int) : (Q.ofInt n).eval = (n : ℚ) := by
  simp [Q.ofInt, Q.eval]

theorem Q.lt_half_iff (r : Q) (h : r.den ≠ 0) :
    (r.num * 2 < (r.den : Int)) ↔ r.eval < 1/2 := by
  have hd : (0 : ℚ) < (r.den : ℚ) := by
    exact_mod_cast Nat.pos_of_ne_zero h
  rw [Q.eval, div_lt_div_iff hd (by norm_num : (0 : ℚ) < 2), one_mul]
  constructor
  · intro hh; exact_mod_cast hh
  · intro hh; exact_mod_cast hh

theorem Q.half_lt_iff (r : Q) (h : r.den ≠ 0) :
    ((r.den : Int) < r.num * 2) ↔ 1/2 < r.eval := by
  have hd : (0 : ℚ) < (r.den : ℚ) := by
    exact_mod_cast Nat.pos_of_ne_zero h
  rw [Q.eval, div_lt_div_iff (by norm_num : (0 : ℚ) < 2) hd, one_mul]
  constructor
  · intro hh; exact_mod_cast hh
  · intro hh; exact_mod_cast hh

/-- Two unnormalized fractions with the same rational value round the same
way: `pyRound` is well defined on values. -/
theorem pyRound_congr (p q : Q) (hp : p.den ≠ 0) (hq : q.den ≠ 0)
    (hev : p.eval = q.eval) : pyRound p = pyRound q := by
  have hfl : p.floor = q.floor := by
    rw [Q.floor_eval p hp, Q.floor_eval q hq, hev]
  have hdp : (p.sub (Q.ofInt p.floor)).den ≠ 0 := by
    simpa [Q.sub, Q.ofInt] using hp
  have hdq : (q.sub (Q.ofInt q.floor)).den ≠ 0 := by
    simpa [Q.sub, Q.ofInt] using hq
  have hfr : (p.sub (Q.ofInt p.floor)).eval = (q.sub (Q.ofInt q.floor)).eval := by
    rw [Q.eval_sub _ _ hp (by simp [Q.ofInt]), Q.eval_sub _ _ hq (by simp [Q.ofInt]),
      Q.eval_ofInt, Q.eval_ofInt, hev, hfl]
  have c1 : ((p.sub (Q.ofInt p.floor)).num * 2 < ((p.sub (Q.ofInt p.floor)).den : Int))
      ↔ ((q.sub (Q.ofInt q.floor)).num * 2 < ((q.sub (Q.ofInt q.floor)).den : Int)) := by
    rw [Q.lt_half_iff _ hdp, Q.lt_half_iff _ hdq, hfr]
  have c2 : (((p.sub (Q.ofInt p.floor)).den : Int) < (p.sub (Q.ofInt p.floor)).num * 2)
      ↔ (((q.sub (Q.ofInt q.floor)).den : Int) < (q.sub (Q.ofInt q.floor)).num * 2) := by
    rw [Q.half_lt_iff _ hdp, Q.half_lt_iff _ hdq, hfr]
  simp only [pyRound, c1, c2]
  rw [hfl]

@[simp] theorem Q.den_add (p q : Q) : (p.add q).den = p.den * q.den := rfl
@[simp] theorem Q.den_sub (p q : Q) : (p.sub q).den = p.den * q.den := rfl
@[simp] theorem Q.den_mul (p q : Q) : (p.mul q).den = p.den * q.den := rfl
@[simp] theorem Q.den_ofInt (n : Int) : (Q.ofInt n).den = 1 := rfl

theorem Q.eval_add (p q : Q) (hp : p.den ≠ 0) (hq : q.den ≠ 0) :
    (p.add q).eval = p.eval + q.eval := by
  have hp' : ((p.den : ℚ)) ≠ 0 := Nat.cast_ne_zero.mpr hp
  have hq' : ((q.den : ℚ)) ≠ 0 := Nat.cast_ne_zero.mpr hq
  simp only [Q.add, Q.eval]
  push_cast
  field_simp

theorem Q.eval_mul (p q : Q) (hp : p.den ≠ 0) (hq : q.den ≠ 0) :
    (p.mul q).eval = p.eval * q.eval := by
  have hp' : ((p.den : ℚ)) ≠ 0 := Nat.cast_ne_zero.mpr hp
  have hq' : ((q.den : ℚ)) ≠ 0 := Nat.cast_ne_zero.mpr hq
  simp only [Q.mul, Q.eval]
  push_cast
  field_simp

theorem pyRound_congr_cross (p q : Q) (hp : p.den ≠ 0) (hq : q.den ≠ 0)
    (h : p.num * (q.den : Int) = q.num * (p.den : Int)) : pyRound p = pyRound q := by
  apply pyRound_congr p q hp hq
  have hp' : ((p.den : ℚ)) ≠ 0 := Nat.cast_ne_zero.mpr hp
  have hq' : ((q.den : ℚ)) ≠ 0 := Nat.cast_ne_zero.mpr hq
  rw [Q.eval, Q.eval, div_eq_div_iff hp' hq']
  exact_mod_cast h

/-- Addition reassociation underneath `pyRound`: the code's grouping
`devx + (a*xp + c*yp + e) + mid` rounds identically to the spec's
`devx + a*xp + c*yp + e + mid`. -/
theorem pyRound_regroup (a c e : Q) (dv px py w : Int)
    (ha : a.den ≠ 0) (hc : c.den ≠ 0) (he : e.den ≠ 0) :
    pyRound (((Q.ofInt dv).add (((a.mul ((Q.ofInt px).sub (Q.sub ⟨w, 2⟩ ⟨1, 2⟩))).add
        (c.mul ((Q.ofInt py).sub (Q.sub ⟨w, 2⟩ ⟨1, 2⟩)))).add e)).add (Q.sub ⟨w, 2⟩ ⟨1, 2⟩)) =
    pyRound (((((Q.ofInt dv).add (a.mul ((Q.ofInt px).sub (Q.sub ⟨w, 2⟩ ⟨1, 2⟩)))).add
        (c.mul ((Q.ofInt py).sub (Q.sub ⟨w, 2⟩ ⟨1, 2⟩)))).add e).add (Q.sub ⟨w, 2⟩ ⟨1, 2⟩)) := by
  apply pyRound_congr_cross
  · simp [Nat.mul_eq_zero, ha, hc, he]
  · simp [Nat.mul_eq_zero, ha, hc, he]
  · simp only [Q.add, Q.sub, Q.mul, Q.ofInt]
    push_cast
    ring

/-- Pin placement as the specification words it, parameterized by the
rounding function: grid coordinates are
`rnd(devx + a*xp + c*yp + e + mid)` and `rnd(devy + b*xp + d*yp + f + mid)`
with `mid = width/2 - 0.5` and `width = max(max(x, y) over pins) + 1`. -/
def specRotateCore (rnd : Q → Int) (shape : List (Int × Int × String))
    (t : T6) (devx devy : Int) : Option PortMap :=
  match shape with
  | [] => none
  | s0 :: srest =>
    let width : Int :=
      (srest.foldl (fun m q => max m (max q.1 q.2.1)) (max s0.1 s0.2.1)) + 1
    let mid : Q := Q.sub ⟨width, 2⟩ ⟨1, 2⟩
    some ((s0 :: srest).foldl (fun res q =>
      let xp : Q := (Q.ofInt q.1).sub mid
      let yp : Q := (Q.ofInt q.2.1).sub mid
      alInsert res
        (rnd (((((Q.ofInt devx).add (t.a.mul xp)).add (t.c.mul yp)).add t.e).add mid),
         rnd (((((Q.ofInt devy).add (t.b.mul xp)).add (t.d.mul yp)).add t.f).add mid))
        (some q.2.2)) [])

/-- The claim's version of `rotate`: the spec formula with rounding half
away from zero.  This definition follows the spec's words, for comparison
with the code's `rotate`. -/
def specRotate (shape : List (Int × Int × String)) (t : T6) (devx devy : Int) :
    Option PortMap :=
  specRotateCore roundHalfAway shape t devx devy

/-- The amended version: the spec formula with Python's half-to-even. -/
def specRotateEven (shape : List (Int × Int × String)) (t : T6) (devx devy : Int) :
    Option PortMap :=
  specRotateCore pyRound shape t devx devy

/-- C4 counterexample: with the two-port shape, transform
`[1, 0, 0, 1, 0.5, 0]` and origin `(1, 0)`, `rotate` computes the x
coordinate as `round(2.5) = 2` (Python ties to even), while the claimed
half-away-from-zero rounding yields `3`: the claim's placement formula
disagrees with the code on this input. -/
theorem C4_counterexample :
    rotate twoport_shape ⟨Q.ofInt 1, Q.ofInt 0, Q.ofInt 0, Q.ofInt 1, ⟨1, 2⟩, Q.ofInt 0⟩ 1 0 =
      some [((2, 0), some "P"), ((2, 2), some "N")] ∧
    specRotate twoport_shape ⟨Q.ofInt 1, Q.ofInt 0, Q.ofInt 0, Q.ofInt 1, ⟨1, 2⟩, Q.ofInt 0⟩ 1 0 =
      some [((3, 0), some "P"), ((3, 2), some "N")] ∧
    rotate twoport_shape ⟨Q.ofInt 1, Q.ofInt 0, Q.ofInt 0, Q.ofInt 1, ⟨1, 2⟩, Q.ofInt 0⟩ 1 0 ≠
      specRotate twoport_shape ⟨Q.ofInt 1, Q.ofInt 0, Q.ofInt 0, Q.ofInt 1, ⟨1, 2⟩, Q.ofInt 0⟩ 1 0 := by
  refine ⟨by decide, by decide, by decide⟩

/-- C4 (amended): for every pin shape, 6-tuple affine transform (with
well-formed denominators) and device origin, `rotate` computes each grid
coordinate as `round(devx + a*xp + c*yp + e + mid)` and
`round(devy + b*xp + d*yp + f + mid)` with `mid = width/2 - 0.5` and
`width = max(max(x, y) over pins) + 1`, where `round` is Python 3's
round-half-to-even (not half-away-from-zero); the results are integers. -/
theorem C4_rotate_formula (shape : List (Int × Int × String)) (t : T6)
    (devx devy : Int) (ha : t.a.den ≠ 0) (hb : t.b.den ≠ 0) (hc : t.c.den ≠ 0)
    (hd : t.d.den ≠ 0) (he : t.e.den ≠ 0) (hf : t.f.den ≠ 0) :
    rotate shape t devx devy = specRotateEven shape t devx devy := by
  cases shape with
  | nil => rfl
  | cons s0 srest =>
    simp only [rotate, specRotateEven, specRotateCore]
    generalize ((srest.foldl (fun m q => max m (max q.1 q.2.1)) (max s0.1 s0.2.1)) + 1) = w
    congr 1
    apply List.foldl_ext
    intro res q hq
    rw [pyRound_regroup t.a t.c t.e devx q.1 q.2.1 w ha hc he,
      pyRound_regroup t.b t.d t.f devy q.1 q.2.1 w hb hd hf]

/-! ## C7: property rendering order -/

/-- Values of `model` keys, in encounter order. -/
def propsModels (props : List (String × String)) : List String :=
  (props.filter (fun kv => kv.1 == "model")).map Prod.snd

/-- Renderings of all non-`model` keys in insertion order: the `spice`
value verbatim, any other key as `k=v`. -/
def propsRest (props : List (String × String)) : List String :=
  props.filterMap (fun kv =>
    if kv.1 = "model" then none
    else if kv.1 = "spice" then some kv.2
    else some (kv.1 ++ "=" ++ kv.2))

theorem print_props_fold (props : List (String × String)) (acc : List String) :
    props.foldl (fun prs kv =>
      if kv.1 = "model" then kv.2 :: prs
      else if kv.1 = "spice" then prs ++ [kv.2]
      else prs ++ [kv.1 ++ "=" ++ kv.2]) acc =
    (propsModels props).reverse ++ acc ++ propsRest props := by
  induction props generalizing acc with
  | nil => simp [propsModels, propsRest]
  | cons kv t ih =>
    by_cases hm : kv.1 = "model"
    · simp only [List.foldl_cons, hm, if_pos rfl, ih]
      simp [propsModels, propsRest, hm]
    · by_cases hs : kv.1 = "spice"
      · simp only [List.foldl_cons, hm, hs, if_neg hm, if_pos rfl, ih]
        simp [propsModels, propsRest, hm, hs]
      · simp only [List.foldl_cons, if_neg hm, if_neg hs, ih]
        simp [propsModels, propsRest, hm, hs]

/-- C7 (amended): `print_props` renders the values of `model` keys first
(before all other properties), and every other key in insertion order,
`spice` as its value verbatim in the position it occupies in the mapping
(so properties listed after `spice` render after it, not before), any
other key as `k=v`. -/
theorem C7_print_props_order (props : List (String × String)) :
    print_props props =
      String.intercalate " " ((propsModels props).reverse ++ propsRest props) := by
  rw [print_props, print_props_fold props []]
  simp

/-- C7 counterexample: with properties `{spice: extra, w: 2}` the `spice`
value renders before `w=2`, not after all other rendered properties as the
claim states. -/
theorem C7_counterexample :
    print_props [("spice", "extra"), ("w", "2")] = "extra w=2" ∧
    print_props [("spice", "extra"), ("w", "2")] ≠ "w=2 extra" := by
  refine ⟨by decide, by decide⟩

/-! ## C9: getports on text and unknown cells -/

/-- C9 (amended): a `text` document yields the empty pin map, but a
document whose cell is not a recognized primitive and has no
`models:<cell>` entry makes `getports` raise a `KeyError`
(embedded as `none`) rather than return the empty mapping. -/
theorem C9_getports_text_unknown (doc : Doc) (models : Models) :
    (doc.cell = "text" → getports doc models = some []) ∧
    (doc.cell ∉ knownCells → alGet? models ("models:" ++ doc.cell) = none →
      getports doc models = none) := by
  constructor
  · intro h
    rw [getports, h]
    simp
  · intro hk hm
    simp only [knownCells, List.mem_cons, List.mem_singleton, not_or] at hk
    obtain ⟨h1, h2, h3, h4, h5, h6, h7, h8, h9, h10, h11, h12, h13, _⟩ := hk
    rw [getports]
    simp only [h1, h2, h3, h4, h5, h6, h7, h8, h9, h10, h11, h12, h13,
      if_false, or_self, or_false, false_or, if_neg, hm]

/-- C9 witness: a concrete `text` document yields the empty pin map, and a
concrete unknown cell (`opamp`) with an empty model dictionary raises. -/
theorem C9_witness :
    getports { cell := "text" } [] = some [] ∧
    getports { cell := "opamp" } [] = none :=
  ⟨(C9_getports_text_unknown { cell := "text" } []).1 rfl,
   (C9_getports_text_unknown { cell := "opamp" } []).2 (by decide) rfl⟩

/-- C9 counterexample: for the unknown non-primitive cell `opamp` with no
`models:opamp` entry, `getports` does not return the empty mapping (it
raises a `KeyError`, embedded as `none`). -/
theorem C9_counterexample :
    getports { cell := "opamp" } [] = none ∧
    getports { cell := "opamp" } [] ≠ some [] := by
  refine ⟨by decide, by decide⟩

/-! ## C2: stream frame append vs replace -/

/-- C2 (amended): for a chunk result `(k, v)` whose suffixed key is already
present with stored frame `b`: if the column lists agree the chunk is
appended to the stored frame; if they differ a new frame holding exactly
the chunk is stored under the same key, replacing the old frame, whose
contents are no longer observable at that key (other keys are untouched). -/
theorem C2_stream_append_or_replace (suffix : String) (store : List (String × DF))
    (k : String) (v b : DF) (hget : alGet? store (k ++ suffix) = some b) :
    (v.columns = b.columns →
      (streamStep suffix store (k, v)).1 =
        alInsert store (k ++ suffix) (dfSend b v) ∧
      alGet? (streamStep suffix store (k, v)).1 (k ++ suffix) =
        some { columns := b.columns, rows := b.rows ++ v.rows }) ∧
    (v.columns ≠ b.columns →
      alGet? (streamStep suffix store (k, v)).1 (k ++ suffix) = some v ∧
      v ≠ b ∧
      (∀ k2, k2 ≠ k ++ suffix →
        alGet? (streamStep suffix store (k, v)).1 k2 = alGet? store k2)) := by
  constructor
  · intro hcols
    refine ⟨?_, ?_⟩
    · simp only [streamStep, hget, if_pos hcols]
    · simp only [streamStep, hget, if_pos hcols]
      rw [alGet?_alInsert_self]
      rfl
  · intro hcols
    simp only [streamStep, hget, if_neg hcols]
    refine ⟨alGet?_alInsert_self _ _ _, fun hvb => hcols (hvb ▸ rfl), ?_⟩
    intro k2 hk2
    exact alGet?_alInsert_ne _ _ _ _ hk2

def c2df1 : DF := ⟨["f", "v"], [[⟨1, 1⟩, ⟨10, 1⟩]]⟩
def c2df2 : DF := ⟨["f", "v"], [[⟨2, 1⟩, ⟨20, 1⟩]]⟩
def c2df3 : DF := ⟨["f", "i"], [[⟨3, 1⟩, ⟨30, 1⟩]]⟩

/-- C2 witness: on the concrete store holding `ac1` with columns `f, v`, a
matching chunk is appended and a column-mismatched chunk replaces the
frame. -/
theorem C2_witness :
    alGet? (streamStep "" [("ac1", c2df1)] ("ac1", c2df2)).1 "ac1" =
      some { columns := ["f", "v"], rows := c2df1.rows ++ c2df2.rows } ∧
    alGet? (streamStep "" [("ac1", c2df1)] ("ac1", c2df3)).1 "ac1" = some c2df3 :=
  ⟨((C2_stream_append_or_replace "" [("ac1", c2df1)] "ac1" c2df2 c2df1
      (by decide)).1 (by decide)).2,
   ((C2_stream_append_or_replace "" [("ac1", c2df1)] "ac1" c2df3 c2df1
      (by decide)).2 (by decide)).1⟩

/-- C2 counterexample: streaming two chunks with columns `f, v` (which
append into one frame) and then one with columns `f, i` leaves only the
new frame in the result store: the old frame (rows of the first two
chunks) is not observable, contradicting the claim that both frames are. -/
theorem C2_counterexample :
    streamRun "" [] [[("ac1", c2df1)], [("ac1", c2df2)], [("ac1", c2df3)]] =
      [("ac1", c2df3)] ∧
    (({ columns := ["f", "v"], rows := c2df1.rows ++ c2df2.rows } : DF) ∉
      (streamRun "" [] [[("ac1", c2df1)], [("ac1", c2df2)], [("ac1", c2df3)]]).map
        Prod.snd) := by
  refine ⟨by decide, by decide⟩

/-! ## C5: idempotence of change application -/

/-- C5 (amended): applying the same change twice to a mirror is idempotent
for updates (a second application leaves the mirror unchanged and does not
raise), but not for deletions: the first deletion removes the document
from its schematic bucket, and a second deletion of the same doc id
raises a `KeyError` (embedded as `none`). -/
theorem C5_applyChange_twice (schem : Schem) (c : Doc) (s' : Schem) :
    (c.deleted = false → applyChange schem c = some s' →
      applyChange s' c = some s') ∧
    (c.deleted = true → (∀ p ∈ schem, (alKeys p.2).Nodup) →
      applyChange schem c = some s' →
      (∃ sid, SchemId.fromString c.docId = some sid ∧
        ∃ b', alGet? s' sid.schem = some b' ∧ alGet? b' c.docId = none) ∧
      applyChange s' c = none) := by
  constructor
  · intro hdel h
    rcases hsid : SchemId.fromString c.docId with _ | sid
    · simp only [applyChange, hsid] at h
      exact Option.noConfusion h
    · simp only [applyChange, hsid, hdel, Bool.false_eq_true, if_false] at h
      rcases hb : alGet? schem sid.schem with _ | bucket
      · simp only [hb] at h
        exact Option.noConfusion h
      · simp only [hb, Option.some.injEq] at h
        subst h
        simp only [applyChange, hsid, hdel, Bool.false_eq_true, if_false,
          alGet?_alInsert_self, alInsert_alInsert_same]
  · intro hdel hwf h
    rcases hsid : SchemId.fromString c.docId with _ | sid
    · simp only [applyChange, hsid] at h
      exact Option.noConfusion h
    · simp only [applyChange, hsid, hdel, if_true] at h
      rcases hb : alGet? schem sid.schem with _ | bucket
      · simp only [hb] at h
        exact Option.noConfusion h
      · simp only [hb] at h
        rcases hpop : alPop bucket c.docId with _ | ⟨r, bucket'⟩
        · simp only [hpop] at h
          exact Option.noConfusion h
        · simp only [hpop, Option.some.injEq] at h
          subst h
          have hnd : (alKeys bucket).Nodup := hwf _ (alGet?_mem _ _ _ hb)
          have habs : alGet? bucket' c.docId = none :=
            alPop_nodup_absent bucket c.docId r bucket' hnd hpop
          refine ⟨⟨sid, rfl, bucket', alGet?_alInsert_self _ _ _, habs⟩, ?_⟩
          simp only [applyChange, hsid, hdel, if_true, alGet?_alInsert_self,
            (alPop_eq_none bucket' c.docId).mpr habs]

def c5docA : Doc := { docId := "top$top:a", cell := "resistor" }
def c5docB : Doc := { docId := "top$top:b", cell := "resistor" }
def c5schem : Schem := [("top$top", [("top$top:a", c5docA), ("top$top:b", c5docB)])]
def c5upd : Doc := { docId := "top$top:a", cell := "resistor", name := some "r1" }
def c5del : Doc := { docId := "top$top:b", cell := "resistor", deleted := true }

/-- C5 witness: on the concrete two-device mirror, applying the same
update twice equals applying it once, and after one deletion the doc is
gone from the bucket and a second deletion raises. -/
theorem C5_witness :
    applyChange (alInsert c5schem "top$top"
        (alInsert [("top$top:a", c5docA), ("top$top:b", c5docB)] "top$top:a" c5upd))
      c5upd =
      some (alInsert c5schem "top$top"
        (alInsert [("top$top:a", c5docA), ("top$top:b", c5docB)] "top$top:a" c5upd)) ∧
    applyChange (alInsert c5schem "top$top" [("top$top:a", c5docA)]) c5del = none :=
  ⟨(C5_applyChange_twice c5schem c5upd _).1 rfl (by decide),
   ((C5_applyChange_twice c5schem c5del _).2 rfl (by decide) (by decide)).2⟩

/-- C5 counterexample: deleting doc `top$top:b` once succeeds, deleting it
a second time raises a `KeyError` (embedded as `none`), so repeated
deletion is not idempotent as the claim states. -/
theorem C5_counterexample :
    applyChange c5schem c5del =
      some [("top$top", [("top$top:a", c5docA)])] ∧
    applyChange [("top$top", [("top$top:a", c5docA)])] c5del = none := by
  refine ⟨by decide, by decide⟩

/-! ## C1: each device pin maps to exactly one net -/

/-- The inversion loop of `netlist` produces a well-formed two-level map:
device ids are pairwise distinct keys, and within each device the port
names are pairwise distinct keys, so each `(device, port)` pair carries
exactly one net name. -/
theorem invert_wf (nl : Nl) :
    (alKeys (invert nl)).Nodup ∧ ∀ p ∈ invert nl, (alKeys p.2).Nodup := by
  rw [invert]
  apply foldl_preserve
    (P := fun inl : Inl => (alKeys inl).Nodup ∧ ∀ p ∈ inl, (alKeys p.2).Nodup)
  · exact ⟨List.nodup_nil, by simp⟩
  · intro inl nv h
    apply foldl_preserve
      (P := fun inl : Inl => (alKeys inl).Nodup ∧ ∀ p ∈ inl, (alKeys p.2).Nodup)
    · exact h
    · intro inl2 dv h2
      apply foldl_preserve
        (P := fun inl : Inl => (alKeys inl).Nodup ∧ ∀ p ∈ inl, (alKeys p.2).Nodup)
      · exact h2
      · intro inl3 port h3
        refine ⟨alKeys_nodup_alUpsert _ _ _ _ h3.1, ?_⟩
        intro p hp
        rcases mem_alUpsert _ _ _ _ p hp with hmem | ⟨hk, hval⟩
        · exact h3.2 p hmem
        · rcases hval with hval | ⟨v, hv, hval⟩
          · rw [hval]
            exact alKeys_nodup_alInsert _ _ _ (by simp [alKeys])
          · rw [hval]
            exact alKeys_nodup_alInsert _ _ _ (h3.2 (dv.1, v) hv)

theorem netlistTrace_fst (fuel : Nat) (docs : List Doc) (models : Models)
    (r : Inl × List (Bool × String) × Nat)
    (h : netlistTrace fuel docs models = some r) : ∃ nl, r.1 = invert nl := by
  rw [netlistTrace] at h
  rcases hpi : port_index docs models with _ | ⟨di, wi⟩
  · simp only [hpi] at h
    exact Option.noConfusion h
  · simp only [hpi] at h
    rcases ho : outerF models di fuel fuel wi [] 0 with _ | ⟨nl, ctr, n⟩
    · simp only [ho] at h
      exact Option.noConfusion h
    · simp only [ho, Option.some.injEq] at h
      exact ⟨nl, by rw [← h]⟩

/-- C1: whenever `netlist` completes, the returned mapping sends each
device id to a function from port name to exactly one net name — device
keys are pairwise distinct and, per device, port keys are pairwise
distinct, so no `(device, port)` pair is associated with two nets. -/
theorem C1_netlist_pin_unique (fuel : Nat) (docs : List Doc) (models : Models)
    (inl : Inl) (h : netlist fuel docs models = some inl) :
    (alKeys inl).Nodup ∧ ∀ p ∈ inl, (alKeys p.2).Nodup := by
  rw [netlist] at h
  rcases ht : netlistTrace fuel docs models with _ | r
  · rw [ht] at h; exact Option.noConfusion h
  · rw [ht] at h
    simp only [Option.map_some', Option.some.injEq] at h
    obtain ⟨nl, hnl⟩ := netlistTrace_fst fuel docs models r ht
    rw [← h, hnl]
    exact invert_wf nl

def w1docs : List Doc :=
  [ { docId := "top$top:r1", cell := "resistor", x := 0, y := 0 },
    { docId := "top$top:in", cell := "port", x := 1, y := 0, name := some "IN" },
    { docId := "top$top:out", cell := "port", x := 1, y := 2, name := some "OUT" } ]

def w1inl : Inl := [("top$top:r1", [(some "N", "OUT"), (some "P", "IN")])]

/-- C1 witness: the one-resistor-between-two-ports schematic extracts to a
concrete mapping on which the uniqueness conclusion holds. -/
theorem C1_witness :
    netlist 20 w1docs [] = some w1inl ∧
    ((alKeys w1inl).Nodup ∧ ∀ p ∈ w1inl, (alKeys p.2).Nodup) :=
  ⟨by decide, C1_netlist_pin_unique 20 w1docs [] w1inl (by decide)⟩

/-! ## C3: port-declared names override wire-declared names -/

/-- The effect of processing one document on the running `netname` of a
component: a wire name is adopted only when `netname` is still null, a
port name is adopted unconditionally. -/
def nameStep (nm : Option String) (doc : Doc) : Option String :=
  if doc.cell = "wire" then (if nm = none ∧ doc.name ≠ none then doc.name else nm)
  else if doc.cell = "port" then doc.name
  else nm

/-- The final `netname` of a completed component BFS is the fold of
`nameStep` over the documents in processing order, and only wires and
ports are ever processed. -/
theorem innerF_netname (models : Models) (di : DeviceIndex) :
    ∀ (f : Nat) (wi : WireIndex) (q : List Doc) (nm : Option String) (nd : NetDevs)
      (nm' : Option String) (nd' : NetDevs) (wi' : WireIndex) (tr : List Doc),
      innerF models di f wi q nm nd = some (nm', nd', wi', tr) →
      nm' = tr.foldl nameStep nm ∧ ∀ d ∈ tr, d.cell = "wire" ∨ d.cell = "port" := by
  intro f
  induction f with
  | zero =>
    intro wi q nm nd nm' nd' wi' tr h
    cases q with
    | nil =>
      simp only [innerF, Option.some.injEq, Prod.mk.injEq] at h
      obtain ⟨h1, h2, h3, h4⟩ := h
      subst h1; subst h4
      exact ⟨rfl, by simp⟩
    | cons doc rest =>
      simp only [innerF] at h
      exact Option.noConfusion h
  | succ f ih =>
    intro wi q nm nd nm' nd' wi' tr h
    cases q with
    | nil =>
      simp only [innerF, Option.some.injEq, Prod.mk.injEq] at h
      obtain ⟨h1, h2, h3, h4⟩ := h
      subst h1; subst h4
      exact ⟨rfl, by simp⟩
    | cons doc rest =>
      by_cases hwc : doc.cell = "wire"
      · rw [innerF, if_pos hwc] at h
        rcases hgp : getports doc models with _ | pm
        · simp only [hgp] at h
          exact Option.noConfusion h
        · simp only [hgp] at h
          rcases hrec : innerF models di f
              (pm.foldl (wireStep di) (wi, rest, nd)).1
              (pm.foldl (wireStep di) (wi, rest, nd)).2.1
              (if nm = none ∧ doc.name ≠ none then doc.name else nm)
              (pm.foldl (wireStep di) (wi, rest, nd)).2.2
            with _ | ⟨a, b, c2, tr2⟩
          · simp only [hrec] at h
            exact Option.noConfusion h
          · simp only [hrec, Option.some.injEq, Prod.mk.injEq] at h
            obtain ⟨h1, h2, h3, h4⟩ := h
            subst h1; subst h4
            obtain ⟨g1, g2⟩ := ih _ _ _ _ _ _ _ _ hrec
            constructor
            · rw [g1, List.foldl_cons]
              have hns : nameStep nm doc =
                  (if nm = none ∧ doc.name ≠ none then doc.name else nm) := by
                rw [nameStep, if_pos hwc]
              rw [hns]
            · intro d hd
              rcases List.mem_cons.mp hd with hd | hd
              · exact Or.inl (hd ▸ hwc)
              · exact g2 d hd
      · by_cases hpc : doc.cell = "port"
        · rw [innerF, if_neg hwc, if_pos hpc] at h
          rcases hrec : innerF models di f wi rest doc.name nd with _ | ⟨a, b, c2, tr2⟩
          · simp only [hrec] at h
            exact Option.noConfusion h
          · simp only [hrec, Option.some.injEq, Prod.mk.injEq] at h
            obtain ⟨h1, h2, h3, h4⟩ := h
            subst h1; subst h4
            obtain ⟨g1, g2⟩ := ih _ _ _ _ _ _ _ _ hrec
            constructor
            · rw [g1, List.foldl_cons]
              have hns : nameStep nm doc = doc.name := by
                rw [nameStep, if_neg hwc, if_pos hpc]
              rw [hns]
            · intro d hd
              rcases List.mem_cons.mp hd with hd | hd
              · exact Or.inr (hd ▸ hpc)
              · exact g2 d hd
        · rw [innerF, if_neg hwc, if_neg hpc] at h
          exact Option.noConfusion h

theorem filter_eq_singleton_split {γ : Type} (pb : γ → Bool) (l : List γ) (a : γ)
    (h : l.filter pb = [a]) :
    ∃ l1 l2, l = l1 ++ a :: l2 ∧ (∀ x ∈ l1, pb x = false) ∧
      (∀ x ∈ l2, pb x = false) := by
  induction l with
  | nil => simp at h
  | cons x t ih =>
    rcases hx : pb x with _ | _
    · rw [List.filter_cons, hx] at h
      simp only [Bool.false_eq_true, if_false] at h
      obtain ⟨l1, l2, g1, g2, g3⟩ := ih h
      exact ⟨x :: l1, l2, by rw [g1, List.cons_append], by
        intro y hy
        rcases List.mem_cons.mp hy with hy | hy
        · exact hy ▸ hx
        · exact g2 y hy, g3⟩
    · rw [List.filter_cons, hx] at h
      simp only [if_true, List.cons.injEq] at h
      obtain ⟨h1, h2⟩ := h
      subst h1
      refine ⟨[], t, rfl, by simp, ?_⟩
      intro y hy
      rcases hyy : pb y with _ | _
      · rfl
      · exfalso
        have : y ∈ t.filter pb := List.mem_filter.mpr ⟨hy, hyy⟩
        rw [h2] at this
        simp at this

theorem foldl_nameStep_no_port (l : List Doc)
    (hnp : ∀ d ∈ l, (d.cell == "port") = false) (s : String) :
    l.foldl nameStep (some s) = some s := by
  induction l with
  | nil => rfl
  | cons d t ih =>
    have hd : (d.cell == "port") = false := hnp d (List.mem_cons_self _ _)
    have hd' : d.cell ≠ "port" := by
      intro hh
      rw [hh] at hd
      simp at hd
    rw [List.foldl_cons]
    have hstep : nameStep (some s) d = some s := by
      rw [nameStep]
      by_cases hw : d.cell = "wire"
      · rw [if_pos hw]
        simp
      · rw [if_neg hw, if_neg hd']
    rw [hstep]
    exact ih (fun d hd2 => hnp d (List.mem_cons_of_mem _ hd2))

/-- C3: if a completed component BFS (started with null `netname`)
processed exactly one port document carrying name `pn`, and at least one
named wire, then the component's final net name is the port's name,
regardless of the order in which the wire and the port were encountered. -/
theorem C3_port_overrides_wire (models : Models) (di : DeviceIndex) (f : Nat)
    (wi : WireIndex) (q : List Doc) (nd : NetDevs) (nm' : Option String)
    (nd' : NetDevs) (wi' : WireIndex) (tr : List Doc) (p : Doc) (pn : String)
    (h : innerF models di f wi q none nd = some (nm', nd', wi', tr))
    (hfilter : tr.filter (fun d => d.cell == "port") = [p])
    (hpn : p.name = some pn)
    (_hw : ∃ w ∈ tr, w.cell = "wire" ∧ w.name ≠ none) :
    nm' = some pn := by
  obtain ⟨hfold, _⟩ := innerF_netname models di f wi q none nd nm' nd' wi' tr h
  obtain ⟨l1, l2, hsplit, hl1, hl2⟩ :=
    filter_eq_singleton_split (fun d => d.cell == "port") tr p hfilter
  have hpcell : p.cell = "port" := by
    have : p ∈ tr.filter (fun d => d.cell == "port") := by
      rw [hfilter]; exact List.mem_singleton.mpr rfl
    have := (List.mem_filter.mp this).2
    simpa using this
  rw [hfold, hsplit, List.foldl_append, List.foldl_cons]
  have hstep : nameStep (l1.foldl nameStep none) p = some pn := by
    rw [nameStep, if_neg (by rw [hpcell]; intro hh; exact absurd hh (by decide)),
      if_pos hpcell, hpn]
  rw [hstep]
  exact foldl_nameStep_no_port l2 hl2 pn

def c3wire : Doc :=
  { docId := "top$top:w1", cell := "wire", x := 0, y := 0, rx := 1, ry := 0,
    name := some "lbl" }
def c3port : Doc :=
  { docId := "top$top:p1", cell := "port", x := 5, y := 5, name := some "IN" }

/-- C3 witness: a component containing the named wire `lbl` and the port
`IN` (wire first in processing order) ends with net name `IN`. -/
theorem C3_witness :
    innerF [] [] 5 [] [c3wire, c3port] none [] =
      some (some "IN", [], [], [c3wire, c3port]) ∧ (some "IN" : Option String) = some "IN" :=
  ⟨by decide,
   C3_port_overrides_wire [] [] 5 [] [c3wire, c3port] [] (some "IN") [] []
     [c3wire, c3port] c3port "IN" (by decide) (by decide) (by decide)
     ⟨c3wire, by decide, by decide, by decide⟩⟩

/-! ## C6: synthetic zero-length wire injection -/

theorem port_indexCore_dummy (models : Models) :
    ∀ (docs : List Doc) (di : DeviceIndex) (wi : WireIndex)
      (di' : DeviceIndex) (wi' : WireIndex),
      port_indexCore models docs di wi = some (di', wi') →
      (∀ c l, alGet? di c = some l →
        ∃ wl, alGet? wi c = some wl ∧ dummyWire c.1 c.2 ∈ wl) →
      ∀ c l, alGet? di' c = some l →
        ∃ wl, alGet? wi' c = some wl ∧ dummyWire c.1 c.2 ∈ wl := by
  intro docs
  induction docs with
  | nil =>
    intro di wi di' wi' h hinv
    simp only [port_indexCore, Option.some.injEq, Prod.mk.injEq] at h
    obtain ⟨h1, h2⟩ := h
    subst h1; subst h2
    exact hinv
  | cons doc rest ih =>
    intro di wi di' wi' h hinv
    rw [port_indexCore] at h
    rcases hgp : getports doc models with _ | pm
    · simp only [hgp] at h
      exact Option.noConfusion h
    · simp only [hgp] at h
      apply ih _ _ _ _ h
      exact foldl_preserve
        (P := fun s : DeviceIndex × WireIndex =>
          ∀ c l, alGet? s.1 c = some l →
            ∃ wl, alGet? s.2 c = some wl ∧ dummyWire c.1 c.2 ∈ wl)
        (indexStep doc) pm (di, wi) hinv (by
          intro s item hP
          rw [indexStep]
          by_cases hwp : doc.cell = "wire" ∨ doc.cell = "port"
          · rw [if_pos hwp]
            intro c l hc
            obtain ⟨wl, hwl, hmem⟩ := hP c l hc
            by_cases hc2 : c = item.1
            · subst hc2
              rw [alGet?_alUpsert, if_pos rfl, hwl]
              exact ⟨wl ++ [doc], rfl, List.mem_append_left _ hmem⟩
            · rw [alGet?_alUpsert, if_neg hc2]
              exact ⟨wl, hwl, hmem⟩
          · rw [if_neg hwp]
            intro c l hc
            by_cases hc2 : c = item.1
            · subst hc2
              rw [alGet?_alUpsert, if_pos rfl]
              exact ⟨(alGet? s.2 item.1).getD [] ++ [dummyWire item.1.1 item.1.2], rfl,
                List.mem_append_right _ (List.mem_singleton.mpr rfl)⟩
            · rw [alGet?_alUpsert, if_neg hc2] at hc
              obtain ⟨wl, hwl, hmem⟩ := hP c l hc
              rw [alGet?_alUpsert, if_neg hc2]
              exact ⟨wl, hwl, hmem⟩)

def c6r1 : Doc := { docId := "top$top:r1", cell := "resistor", x := 2, y := 3 }
def c6r2 : Doc :=
  { docId := "top$top:r2", cell := "resistor", x := 2, y := 1,
    transform := some ⟨Q.ofInt (-1), Q.ofInt 0, Q.ofInt 0, Q.ofInt (-1),
      Q.ofInt 0, Q.ofInt 0⟩ }
def c6docs : List Doc := [c6r1, c6r2]
def c6inl : Inl :=
  [("top$top:r2", [(some "N", "net0"), (some "P", "net2")]),
   ("top$top:r1", [(some "N", "net1"), (some "P", "net2")])]

/-- C6 (amended): `port_index` appends a synthetic zero-length wire
`{cell: wire, x, y, rx: 0, ry: 0}` at every device pin coordinate
unconditionally — in particular the wire index at each device pin
coordinate always contains such a dummy — and for two devices sharing a
pin coordinate `(3, 3)` with no real wire there, extraction places both
device pins on one common net. -/
theorem C6_dummy_wires :
    (∀ (docs : List Doc) (models : Models) (di : DeviceIndex) (wi : WireIndex),
      port_index docs models = some (di, wi) →
      ∀ c l, alGet? di c = some l →
        ∃ wl, alGet? wi c = some wl ∧ dummyWire c.1 c.2 ∈ wl) ∧
    (netlist 30 c6docs [] = some c6inl ∧
      (alGet? c6inl "top$top:r1").bind (fun m => alGet? m (some "P")) = some "net2" ∧
      (alGet? c6inl "top$top:r2").bind (fun m => alGet? m (some "P")) = some "net2") := by
  constructor
  · intro docs models di wi h c l hc
    apply port_indexCore_dummy models docs [] [] di wi h _ c l hc
    intro c l hc
    exact Option.noConfusion hc
  · refine ⟨by decide, by decide, by decide⟩

def c6di1 : DeviceIndex :=
  [((3, 3), [(some "P", c6r1)]), ((3, 5), [(some "N", c6r1)])]
def c6wi1 : WireIndex :=
  [((3, 3), [dummyWire 3 3]), ((3, 5), [dummyWire 3 5])]

/-- C6 witness: for the single resistor `c6r1`, `port_index` yields a
concrete pair of indexes on which the dummy-wire conclusion is checked at
pin coordinate `(3, 3)`. -/
theorem C6_witness :
    port_index [c6r1] [] = some (c6di1, c6wi1) ∧
    ∃ wl, alGet? c6wi1 (3, 3) = some wl ∧ dummyWire 3 3 ∈ wl :=
  ⟨by decide,
   C6_dummy_wires.1 [c6r1] [] c6di1 c6wi1 (by decide) (3, 3)
     [(some "P", c6r1)] (by decide)⟩

def c6cxw : Doc :=
  { docId := "top$top:w1", cell := "wire", x := 3, y := 3, rx := 1, ry := 0 }

/-- C6 counterexample: with a real wire already present at `(3, 3)`, the
synthetic zero-length wire is still injected there, so injection is not
conditional on the absence of a wire as the claim states. -/
theorem C6_counterexample :
    (port_index [c6cxw, c6r1] []).map (fun s => alGet? s.2 (3, 3)) =
      some (some [c6cxw, dummyWire 3 3]) ∧
    c6cxw.cell = "wire" ∧ c6cxw ≠ dummyWire 3 3 := by
  refine ⟨by decide, by decide, by decide⟩

/-! ## C8: synthetic net names -/

/-- The numeric value of a decimal digit character. -/
def digitVal (ch : Char) : Nat := ch.toNat - 48

/-- Reading a decimal digit string left to right. -/
def readDigits (a : Nat) (l : List Char) : Nat :=
  l.foldl (fun a ch => 10 * a + digitVal ch) a

theorem digitVal_digitChar (m : Nat) (h : m < 10) :
    digitVal (Nat.digitChar m) = m := by
  interval_cases m <;> rfl

theorem readDigits_toDigitsCore :
    ∀ (f n : Nat) (l : List Char), n < 10 ^ f →
      readDigits 0 (Nat.toDigitsCore 10 f n l) = readDigits n l := by
  intro f
  induction f with
  | zero =>
    intro n l hn
    interval_cases n
    rfl
  | succ f ih =>
    intro n l hn
    rw [Nat.toDigitsCore]
    by_cases h0 : n / 10 = 0
    · rw [if_pos h0]
      have hlt : n < 10 := (Nat.div_eq_zero_iff (by norm_num)).mp h0
      show readDigits (10 * 0 + digitVal (Nat.digitChar (n % 10))) l = readDigits n l
      rw [digitVal_digitChar _ (Nat.mod_lt _ (by norm_num))]
      rw [Nat.mod_eq_of_lt hlt]
      norm_num
    · rw [if_neg h0]
      have hdiv : n / 10 < 10 ^ f := by
        rw [Nat.div_lt_iff_lt_mul (by norm_num : 0 < 10)]
        calc n < 10 ^ (f + 1) := hn
        _ = 10 ^ f * 10 := by rw [Nat.pow_succ]
      rw [ih (n / 10) (Nat.digitChar (n % 10) :: l) hdiv]
      show readDigits (10 * (n / 10) + digitVal (Nat.digitChar (n % 10))) l =
        readDigits n l
      rw [digitVal_digitChar _ (Nat.mod_lt _ (by norm_num)), Nat.div_add_mod]

theorem readDigits_repr (n : Nat) : readDigits 0 (Nat.repr n).data = n := by
  have h1 : (Nat.repr n).data = Nat.toDigitsCore 10 (n + 1) n [] := rfl
  rw [h1]
  have h2 : n < 10 ^ (n + 1) :=
    Nat.lt_of_lt_of_le (Nat.lt_pow_self (by norm_num) n)
      (Nat.pow_le_pow_right (by norm_num) (Nat.le_succ n))
  rw [readDigits_toDigitsCore (n + 1) n [] h2]
  rfl

theorem natRepr_inj {m n : Nat} (h : Nat.repr m = Nat.repr n) : m = n := by
  have h2 := congrArg (fun s => readDigits 0 s.data) h
  simp only at h2
  rw [readDigits_repr, readDigits_repr] at h2
  exact h2

theorem netName_inj {j k : Nat} (h : "net" ++ Nat.repr j = "net" ++ Nat.repr k) :
    j = k := by
  apply natRepr_inj
  apply String.ext
  have := congrArg String.data h
  rw [String.data_append, String.data_append] at this
  exact List.append_cancel_left this

/-- The synthesized names recorded on the component trace. -/
def synthNames (ctr : List (Bool × String)) : List String :=
  ctr.filterMap (fun sb => if sb.1 then some sb.2 else none)

theorem outerF_synth (models : Models) (di : DeviceIndex) (ifuel : Nat) :
    ∀ (f : Nat) (wi : WireIndex) (nl : Nl) (netnum : Nat) (nlf : Nl)
      (ctr : List (Bool × String)) (nf : Nat),
      outerF models di ifuel f wi nl netnum = some (nlf, ctr, nf) →
      netnum ≤ nf ∧
      synthNames ctr =
        (List.range' netnum (nf - netnum)).map (fun k => "net" ++ Nat.repr k) := by
  intro f
  induction f with
  | zero =>
    intro wi nl netnum nlf ctr nf h
    rw [outerF] at h
    rcases hpl : alPopLast wi with _ | r
    · simp only [hpl, Option.some.injEq, Prod.mk.injEq] at h
      obtain ⟨h1, h2, h3⟩ := h
      subst h2; subst h3
      exact ⟨Nat.le_refl _, by simp [synthNames]⟩
    · simp only [hpl] at h
      exact Option.noConfusion h
  | succ f ih =>
    intro wi nl netnum nlf ctr nf h
    rw [outerF] at h
    rcases hpl : alPopLast wi with _ | ⟨⟨loc, locwires⟩, wi2⟩
    · simp only [hpl, Option.some.injEq, Prod.mk.injEq] at h
      obtain ⟨h1, h2, h3⟩ := h
      subst h2; subst h3
      exact ⟨Nat.le_refl _, by simp [synthNames]⟩
    · simp only [hpl] at h
      rcases hin : innerF models di ifuel wi2 locwires none [] with _ | ⟨nm, nd, wi3, tr⟩
      · simp only [hin] at h
        exact Option.noConfusion h
      · simp only [hin] at h
        rcases nm with _ | s
        · simp only [Option.getD_none, Option.isNone_none, if_true] at h
          rcases hrec : outerF models di ifuel f wi3
              (nd.foldl (nlStep ("net" ++ Nat.repr netnum)) nl) (netnum + 1)
            with _ | ⟨nlf2, ctr2, nf2⟩
          · simp only [hrec] at h
            exact Option.noConfusion h
          · simp only [hrec, Option.some.injEq, Prod.mk.injEq] at h
            obtain ⟨h1, h2, h3⟩ := h
            subst h1; subst h2; subst h3
            obtain ⟨g1, g2⟩ := ih _ _ _ _ _ _ hrec
            refine ⟨Nat.le_of_succ_le g1, ?_⟩
            have hlen : nf2 - netnum = (nf2 - (netnum + 1)) + 1 := by omega
            rw [hlen, List.range'_succ, List.map_cons]
            simp only [synthNames, List.filterMap_cons, if_true]
            rw [← g2]
            rfl
        · simp only [Option.getD_some, Option.isNone_some, Bool.false_eq_true,
            if_false] at h
          rcases hrec : outerF models di ifuel f wi3 (nd.foldl (nlStep s) nl) netnum
            with _ | ⟨nlf2, ctr2, nf2⟩
          · simp only [hrec] at h
            exact Option.noConfusion h
          · simp only [hrec, Option.some.injEq, Prod.mk.injEq] at h
            obtain ⟨h1, h2, h3⟩ := h
            subst h1; subst h2; subst h3
            obtain ⟨g1, g2⟩ := ih _ _ _ _ _ _ hrec
            refine ⟨g1, ?_⟩
            simp only [synthNames, List.filterMap_cons, Bool.false_eq_true, if_false]
            exact g2

/-- C8 (amended): within one extraction the synthesized component names
are exactly `net0, net1, ...` in component order — the counter is
monotonic and scoped to the run — and these synthesized names are
pairwise distinct.  (They are not, however, guaranteed distinct from
names adopted from wires or ports, see the counterexample.) -/
theorem C8_synthetic_names (fuel : Nat) (docs : List Doc) (models : Models)
    (inl : Inl) (ctr : List (Bool × String)) (n : Nat)
    (h : netlistTrace fuel docs models = some (inl, ctr, n)) :
    synthNames ctr = (List.range' 0 n).map (fun k => "net" ++ Nat.repr k) ∧
    (synthNames ctr).Nodup := by
  rw [netlistTrace] at h
  rcases hpi : port_index docs models with _ | ⟨di, wi⟩
  · simp only [hpi] at h
    exact Option.noConfusion h
  · simp only [hpi] at h
    rcases ho : outerF models di fuel fuel wi [] 0 with _ | ⟨nl, ctr2, n2⟩
    · simp only [ho] at h
      exact Option.noConfusion h
    · simp only [ho, Option.some.injEq, Prod.mk.injEq] at h
      obtain ⟨h1, h2, h3⟩ := h
      subst h2; subst h3
      obtain ⟨g1, g2⟩ := outerF_synth models di fuel fuel wi [] 0 nl _ _ ho
      rw [Nat.sub_zero] at g2
      refine ⟨g2, ?_⟩
      rw [g2]
      exact List.Nodup.map (fun j k hjk => netName_inj hjk) (List.nodup_range' _ _)

def c8wa : Doc :=
  { docId := "top$top:wa", cell := "wire", x := 0, y := 0, rx := 2, ry := 0,
    name := some "net0" }
def c8r1 : Doc := { docId := "top$top:r1", cell := "resistor", x := -1, y := 0 }
def c8wb : Doc :=
  { docId := "top$top:wb", cell := "wire", x := 10, y := 0, rx := 2, ry := 0 }
def c8r2 : Doc := { docId := "top$top:r2", cell := "resistor", x := 9, y := 0 }
def c8docs : List Doc := [c8wa, c8r1, c8wb, c8r2]
def c8inl : Inl :=
  [("top$top:r2", [(some "N", "net0"), (some "P", "net1")]),
   ("top$top:r1", [(some "P", "net0"), (some "N", "net2")])]
def c8ctr : List (Bool × String) :=
  [(true, "net0"), (true, "net1"), (true, "net2"), (false, "net0")]

/-- C8 witness: on the concrete schematic `c8docs` the synthesized names
are `net0, net1, net2`, pairwise distinct. -/
theorem C8_witness :
    netlistTrace 30 c8docs [] = some (c8inl, c8ctr, 3) ∧
    synthNames c8ctr = ["net0", "net1", "net2"] ∧ (synthNames c8ctr).Nodup :=
  ⟨by decide, by decide,
   (C8_synthetic_names 30 c8docs [] c8inl c8ctr 3 (by decide)).2⟩

/-- C8 counterexample: on `c8docs` a component's synthesized name `net0`
collides with the wire-adopted name `net0` of a different component, and
the two components' devices end up mapped to the same net name `net0` —
the claim's distinctness from adopted names fails. -/
theorem C8_counterexample :
    netlistTrace 30 c8docs [] = some (c8inl, c8ctr, 3) ∧
    (true, "net0") ∈ c8ctr ∧ (false, "net0") ∈ c8ctr ∧
    (alGet? c8inl "top$top:r2").bind (fun m => alGet? m (some "N")) = some "net0" ∧
    (alGet? c8inl "top$top:r1").bind (fun m => alGet? m (some "P")) = some "net0" := by
  refine ⟨by decide, by decide, by decide, by decide, by decide⟩

/-! ## C10: termination of the recursive initial load -/

theorem sumAbsentL_mono_insert (tbl : List (String × List (String × Doc)))
    (schem : Schem) (k : String) (v : List (String × Doc)) :
    sumAbsentL tbl (alInsert schem k v) ≤ sumAbsentL tbl schem := by
  induction tbl with
  | nil => exact Nat.le_refl _
  | cons p t ih =>
    rw [sumAbsentL, sumAbsentL]
    apply Nat.add_le_add _ ih
    by_cases hk : p.1 = k
    · subst hk
      rw [alGet?_alInsert_self]
      simp
    · rw [alGet?_alInsert_ne _ _ _ _ hk]

theorem sumAbsentL_insert_found (tbl : List (String × List (String × Doc)))
    (schem : Schem) (k : String) (v docs : List (String × Doc))
    (htbl : alGet? tbl k = some docs) (habs : alGet? schem k = none) :
    sumAbsentL tbl (alInsert schem k v) + docs.length ≤ sumAbsentL tbl schem := by
  induction tbl with
  | nil => simp [alGet?] at htbl
  | cons p t ih =>
    rw [sumAbsentL, sumAbsentL]
    by_cases hk : p.1 = k
    · subst hk
      rw [alGet?, if_pos rfl] at htbl
      injection htbl with htbl2
      subst htbl2
      rw [alGet?_alInsert_self]
      rw [if_pos habs]
      have hmono := sumAbsentL_mono_insert t schem p.1 v
      have hne : ¬ ((some v : Option (List (String × Doc))) = none) := by simp
      rw [if_neg hne]
      omega
    · rw [alGet?, if_neg hk] at htbl
      rw [alGet?_alInsert_ne _ _ _ _ hk]
      have := ih htbl
      omega

theorem getAllCore_sufficient (st : Store) (models : List (String × Doc)) :
    ∀ (f : Nat) (schem : Schem) (queue : List Doc),
      queue.length + sumAbsentL st.tbl schem < f →
      (getAllCore st models f schem queue).isSome := by
  intro f
  induction f with
  | zero =>
    intro schem queue h
    omega
  | succ f ih =>
    intro schem queue h
    cases queue with
    | nil => rw [getAllCore]; rfl
    | cons dev rest =>
      rw [getAllCore]
      rcases hm : alGet? dev.props "model" with _ | m
      · simp only [hm]
        exact ih schem rest (by simp only [List.length_cons] at h; omega)
      · simp only [hm]
        by_cases hg : m ≠ "" ∧ alGet? schem (dev.cell ++ "$" ++ m) = none ∧
            (match alGet? models ("models:" ++ dev.cell) with
              | some mdoc => alGet? mdoc.variants m
              | none => none) = some "schematic"
        · rw [if_pos hg]
          by_cases hdocs : (get_docs st (dev.cell ++ "$" ++ m)).2 ≠ []
          · rw [if_pos hdocs]
            have htbl : alGet? st.tbl (dev.cell ++ "$" ++ m) =
                some (get_docs st (dev.cell ++ "$" ++ m)).2 := by
              rcases hh : alGet? st.tbl (dev.cell ++ "$" ++ m) with _ | l
              · exfalso
                apply hdocs
                rw [get_docs, hh]
                rfl
              · rw [get_docs, hh]
                rfl
            have hbound := sumAbsentL_insert_found st.tbl schem
              (dev.cell ++ "$" ++ m) (get_docs st (dev.cell ++ "$" ++ m)).2
              (get_docs st (dev.cell ++ "$" ++ m)).2 htbl hg.2.1
            have hrec := ih (alInsert schem (dev.cell ++ "$" ++ m)
                (get_docs st (dev.cell ++ "$" ++ m)).2)
              (rest ++ (get_docs st (dev.cell ++ "$" ++ m)).2.map Prod.snd)
              (by
                rw [List.length_append, List.length_map]
                simp only [List.length_cons] at h
                omega)
            rcases hcall : getAllCore st models f
                (alInsert schem (dev.cell ++ "$" ++ m)
                  (get_docs st (dev.cell ++ "$" ++ m)).2)
                (rest ++ (get_docs st (dev.cell ++ "$" ++ m)).2.map Prod.snd)
              with _ | r
            · rw [hcall] at hrec
              exact absurd hrec (by simp)
            · rcases r with ⟨s, tr⟩
              simp only [hcall]
              rfl
          · rw [if_neg hdocs]
            have hrec := ih schem rest (by simp only [List.length_cons] at h; omega)
            rcases hcall : getAllCore st models f schem rest with _ | r
            · rw [hcall] at hrec
              exact absurd hrec (by simp)
            · rcases r with ⟨s, tr⟩
              simp only [hcall]
              rfl
        · rw [if_neg hg]
          exact ih schem rest (by simp only [List.length_cons] at h; omega)

/-- Fuel that suffices for `get_all_schem_docs`: the length of the top
schematic's document list plus the total number of documents of store
identifiers not yet mirrored after the two initial fetches, plus one. -/
def getAllFuelBound (st : Store) (name : String) : Nat :=
  let models := (get_docs st "models").2
  let schem := alInsert ([] : Schem) "models" models
  let docs := (get_docs st name).2
  docs.length + sumAbsentL st.tbl (alInsert schem name docs) + 1

/-- C10 (amended): the recursive initial load terminates on every finite
document store, including stores whose schematics reference each other
cyclically: with fuel at least `getAllFuelBound` the device queue drains
and the load returns.  An identifier already present in the mirror is
never re-fetched and a fetch that returns documents moves a new
identifier into the mirror, so the potential (queue length plus unmirrored
documents) strictly decreases.  (An identifier resolving to no documents
may be probed once per referencing device but adds no work; see the
counterexample for a double probe.) -/
theorem C10_get_all_terminates (st : Store) (name : String) (fuel : Nat)
    (h : getAllFuelBound st name ≤ fuel) :
    (get_all_schem_docs fuel st name).isSome := by
  rw [get_all_schem_docs]
  have hcore := getAllCore_sufficient st (get_docs st "models").2 fuel
    (alInsert (alInsert ([] : Schem) "models" (get_docs st "models").2) name
      (get_docs st name).2)
    ((get_docs st name).2.map Prod.snd)
    (by
      rw [List.length_map]
      rw [getAllFuelBound] at h
      omega)
  rcases hcall : getAllCore st (get_docs st "models").2 fuel
      (alInsert (alInsert ([] : Schem) "models" (get_docs st "models").2) name
        (get_docs st name).2)
      ((get_docs st name).2.map Prod.snd)
    with _ | r
  · rw [hcall] at hcore
    exact absurd hcore (by simp)
  · rcases r with ⟨s, tr⟩
    simp only [hcall]
    rfl

def cyModelA : Doc :=
  { docId := "models:a", cell := "a", variants := [("v", "schematic")] }
def cyModelB : Doc :=
  { docId := "models:b", cell := "b", variants := [("w", "schematic")] }
def cyInstA : Doc :=
  { docId := "top$top:i1", cell := "a", props := [("model", "v")] }
def cyInstB : Doc :=
  { docId := "a$v:i2", cell := "b", props := [("model", "w")] }
def cyInstA2 : Doc :=
  { docId := "b$w:i3", cell := "a", props := [("model", "v")] }

def cyStore : Store :=
  ⟨3, [
    ("models", [("models:a", cyModelA), ("models:b", cyModelB)]),
    ("top$top", [("top$top:i1", cyInstA)]),
    ("a$v", [("a$v:i2", cyInstB)]),
    ("b$w", [("b$w:i3", cyInstA2)])]⟩

/-- C10 witness: on a concrete store where schematic `a$v` instantiates
`b$w` and `b$w` instantiates `a$v` (a reference cycle), the load
terminates with the computed fuel bound, mirroring all four identifiers. -/
theorem C10_witness :
    getAllFuelBound cyStore "top$top" ≤ 20 ∧
    (get_all_schem_docs 20 cyStore "top$top").isSome ∧
    (get_all_schem_docs 20 cyStore "top$top").map
      (fun r => (alKeys r.2.1, r.2.2)) =
      some (["models", "top$top", "a$v", "b$w"], ["a$v", "b$w"]) :=
  ⟨by decide, C10_get_all_terminates cyStore "top$top" 20 (by decide), by decide⟩

def c10ModelAmp : Doc :=
  { docId := "models:amp", cell := "amp", variants := [("v1", "schematic")] }
def c10x1 : Doc :=
  { docId := "top$top:x1", cell := "amp", props := [("model", "v1")] }
def c10x2 : Doc :=
  { docId := "top$top:x2", cell := "amp", props := [("model", "v1")] }

def c10st : Store :=
  ⟨7, [
    ("models", [("models:amp", c10ModelAmp)]),
    ("top$top", [("top$top:x1", c10x1), ("top$top:x2", c10x2)])]⟩

/-- C10 counterexample: with two devices referencing schematic `amp$v1`
that has no documents in the store, `get_docs` is invoked twice for the
same identifier `amp$v1`, so "each schematic identifier is fetched at most
once" fails as stated (termination still holds). -/
theorem C10_counterexample :
    (get_all_schem_docs 10 c10st "top$top").map (fun r => r.2.2) =
      some ["amp$v1", "amp$v1"] ∧
    ¬ (["amp$v1", "amp$v1"] : List String).Nodup := by
  refine ⟨by decide, by decide⟩

/-- C4 witness: with the identity transform (integral, so all denominators
are nonzero) at origin `(5, 7)`, `rotate` on the two-port shape agrees
with the spec formula under half-to-even rounding and places the pins at
`(6, 7)` and `(6, 9)`. -/
theorem C4_witness :
    rotate twoport_shape idT 5 7 = specRotateEven twoport_shape idT 5 7 ∧
    rotate twoport_shape idT 5 7 = some [((6, 7), some "P"), ((6, 9), some "N")] :=
  ⟨C4_rotate_formula twoport_shape idT 5 7 (by decide) (by decide) (by decide)
      (by decide) (by decide) (by decide),
   by decide⟩
